import Mathlib

/-!
Verification of the diagnostic remapping layer of the evcxr evaluator
(`src/evcxr/src/errors.rs`).  The JSON diagnostic records, the origin
resolver, the spanned-message builder, the compilation-error assembler,
the message sanitiser and the semantic extractors are shallowly embedded
as executable Lean functions; the claims about them are settled below the
definitions.

The `CodeBlock` description (`code_block.rs`) is not part of the staged
sources; its small interface (`CodeKind`, `Segment`, `origin_for_line`,
`count_columns`) is modelled from the spec where noted.
-/

namespace Evcxr

/-- JSON values as the `json` crate exposes them to `errors.rs`: null,
booleans, numbers (only integer accessors are used by the code, so an `Int`
payload suffices), strings, arrays and objects.  Arrays and objects are
encoded with explicit spine constructors (`arrNil`/`arrCons`,
`objNil`/`objCons`) rather than nested `List`s so that every recursion over
a value is plain structural recursion and every definition evaluates inside
the kernel. -/
inductive JsonValue where
  | null : JsonValue
  | bool (b : Bool) : JsonValue
  | num (n : Int) : JsonValue
  | str (s : String) : JsonValue
  | arrNil : JsonValue
  | arrCons (head : JsonValue) (tail : JsonValue) : JsonValue
  | objNil : JsonValue
  | objCons (key : String) (val : JsonValue) (tail : JsonValue) : JsonValue
  deriving DecidableEq

/-- Build an array value from a list (fixture helper). -/
def JsonValue.arrOf : List JsonValue → JsonValue
  | [] => JsonValue.arrNil
  | v :: rest => JsonValue.arrCons v (JsonValue.arrOf rest)

/-- Build an object value from a field list (fixture helper). -/
def JsonValue.objOf : List (String × JsonValue) → JsonValue
  | [] => JsonValue.objNil
  | (k, v) :: rest => JsonValue.objCons k v (JsonValue.objOf rest)

/-- The elements of an array value (empty for non-arrays and past a
malformed spine). -/
def JsonValue.arrToList : JsonValue → List JsonValue
  | JsonValue.arrCons v rest => v :: rest.arrToList
  | _ => []

/-- The `json` crate's `value[key]` indexing: the first field of an object
with the given key, `Null` otherwise. -/
def JsonValue.getKey : JsonValue → String → JsonValue
  | JsonValue.objCons k v rest, key => if k = key then v else rest.getKey key
  | _, _ => JsonValue.null

/-- The `json` crate's `as_str`. -/
def JsonValue.asStr : JsonValue → Option String
  | JsonValue.str s => some s
  | _ => none

/-- The `json` crate's `as_usize`: defined on non-negative integral numbers. -/
def JsonValue.asUsize : JsonValue → Option Nat
  | JsonValue.num n => if 0 ≤ n then some n.toNat else none
  | _ => none

/-- The `json` crate's `as_bool`. -/
def JsonValue.asBool : JsonValue → Option Bool
  | JsonValue.bool b => some b
  | _ => none

/-- The `json` crate's `is_object`. -/
def JsonValue.isObj : JsonValue → Bool
  | JsonValue.objNil => true
  | JsonValue.objCons _ _ _ => true
  | _ => false

/-- Whether the value is an array (the `JsonValue::Array(..)` pattern). -/
def JsonValue.isArr : JsonValue → Bool
  | JsonValue.arrNil => true
  | JsonValue.arrCons _ _ => true
  | _ => false

/-- The `json` crate's `is_empty`: null, the empty string, the empty array,
the empty object, the number zero and `false` are empty. -/
def JsonValue.isEmptyVal : JsonValue → Bool
  | JsonValue.null => true
  | JsonValue.str s => s.data.isEmpty
  | JsonValue.arrNil => true
  | JsonValue.arrCons _ _ => false
  | JsonValue.objNil => true
  | JsonValue.objCons _ _ _ => false
  | JsonValue.num n => n = 0
  | JsonValue.bool b => !b

/-- Structural size of a JSON value, used as recursion fuel for the
expansion-chain walks (the source recurses on the `expansion.span`
subtree, which is strictly smaller by this measure). -/
def jsize : JsonValue → Nat
  | JsonValue.arrCons h t => 1 + jsize h + jsize t
  | JsonValue.objCons _ v t => 1 + jsize v + jsize t
  | _ => 1

/-- Rust's `str::starts_with`, byte-for-byte; on valid UTF-8 this agrees
with the character-list comparison used here. -/
def strStartsWith (s pre : String) : Bool := pre.data.isPrefixOf s.data

/-- Rust's `str::ends_with`, byte-for-byte; on valid UTF-8 this agrees with
the character-list comparison used here. -/
def strEndsWith (s suf : String) : Bool := suf.data.isSuffixOf s.data

/-- Modelled from the spec: metadata carried by a user-supplied segment
(`OriginalUserCode{start_line, column_offset, node_index}` of
`code_block.rs`, which is not among the staged sources). -/
structure UserCodeMeta where
  start_line : Nat
  column_offset : Nat
  node_index : Nat
  deriving DecidableEq

/-- Modelled from the spec: the provenance tag of a segment of the synthetic
compilation unit (`CodeKind` of `code_block.rs`).  Every generated kind is
classified as not user-supplied, so one generated variant suffices for the
behaviour `errors.rs` observes. -/
inductive CodeKind where
  | originalUserCode (meta : UserCodeMeta) : CodeKind
  | otherGeneratedCode : CodeKind
  deriving DecidableEq

/-- Modelled from the spec: the `is_user_supplied` predicate of `CodeKind`. -/
def CodeKind.is_user_supplied : CodeKind → Bool
  | CodeKind.originalUserCode _ => true
  | CodeKind.otherGeneratedCode => false

/-- Modelled from the spec: a contiguous run of the synthetic compilation
unit with uniform provenance (`Segment` of `code_block.rs`). -/
structure Segment where
  kind : CodeKind
  code : String
  deriving DecidableEq

/-- Modelled from the spec: the generated source file as an ordered list of
segments together with the `origin_for_line` operation, which for the n-th
1-based line of the concatenated source yields the containing segment's
`CodeKind` and the zero-based line offset within that segment.  The
operation is kept as an interface field, as the spec specifies only its
contract. -/
structure CodeBlock where
  segments : List Segment
  origin_for_line : Nat → CodeKind × Nat

/-- Byte length of a segment's code (`x.code.len()` in Rust counts bytes). -/
def segLen (x : Segment) : Nat := x.code.utf8ByteSize

/-- Whether a segment's kind matches `CodeKind::OriginalUserCode(_)`. -/
def isUserSeg (x : Segment) : Bool :=
  match x.kind with
  | CodeKind.originalUserCode _ => true
  | CodeKind.otherGeneratedCode => false

/-- The byte-offset walk of `get_code_origins_for_span`: subtract each
segment's code length from the running offset, stopping when the segment's
length exceeds the remaining offset or the segment is user code. -/
def walkBytes : List Segment → Nat → Nat
  | [], b => b
  | x :: rest, b =>
    if segLen x > b then b
    else if isUserSeg x then b
    else walkBytes rest (b - segLen x)

/-- Whether a span record's `file_name` is a string ending in the synthetic
unit's filename suffix `lib.rs`. -/
def isLocalSpan (span : JsonValue) : Bool :=
  match (span.getKey "file_name").asStr with
  | some file_name => strEndsWith file_name "lib.rs"
  | none => false

/-- Fueled body of `spans_in_local_source`: walk the `expansion.span` chain
looking for a span in the synthetic unit.  The fuel only bounds the
recursion depth; `spans_in_local_source` supplies enough for any input. -/
def slsAux : Nat → JsonValue → Option JsonValue
  | 0, _ => none
  | fuel + 1, span =>
    if isLocalSpan span then some span
    else
      let expansion := span.getKey "expansion"
      if expansion.isObj then slsAux fuel (expansion.getKey "span")
      else none

/-- The source's `spans_in_local_source`: the first span along the
expansion chain whose `file_name` ends with `lib.rs`, if any. -/
def spans_in_local_source (span : JsonValue) : Option JsonValue :=
  slsAux (jsize span) span

/-- The per-line origins of a local span record: one `origin_for_line`
answer per line of `line_start..=line_end`. -/
def lineOrigins (sp : JsonValue) (cb : CodeBlock) : List (CodeKind × Nat) :=
  match (sp.getKey "line_start").asUsize, (sp.getKey "line_end").asUsize with
  | some line_start, some line_end =>
    (List.range' line_start (line_end + 1 - line_start)).map cb.origin_for_line
  | _, _ => []

/-- The source's `get_code_origins_for_span`: resolve a diagnostic span
record to per-line origins and a segment-local byte range (raw byte range
plus the 20-byte prologue offset, walked through the segments). -/
def get_code_origins_for_span (span : JsonValue) (cb : CodeBlock) :
    List (CodeKind × Nat) × (Nat × Nat) :=
  match spans_in_local_source span with
  | some sp =>
    let bs := ((sp.getKey "byte_start").asUsize.getD 0) + 20
    let be := ((sp.getKey "byte_end").asUsize.getD 0) + 20
    (lineOrigins sp cb, (walkBytes cb.segments bs, walkBytes cb.segments be))
  | none => ([], (0, 0))

/-- The source's `get_code_origins`: the `CodeKind`s of every span of the
record, concatenated. -/
def get_code_origins (json : JsonValue) (cb : CodeBlock) : List CodeKind :=
  let spans := json.getKey "spans"
  if spans.isArr then
    (spans.arrToList.map fun s => (get_code_origins_for_span s cb).1.map Prod.fst).flatten
  else []

/-- Fueled body of Rust's `str::replace` specialised to a non-empty needle:
scan left to right, replacing each non-overlapping leftmost occurrence of
`pat` by `rep`.  The fuel (at least the number of characters) only bounds
the recursion. -/
def replaceAllAux (pat rep : List Char) : Nat → List Char → List Char
  | 0, s => s
  | _ + 1, [] => []
  | fuel + 1, c :: rest =>
    if pat ≠ [] ∧ pat.isPrefixOf (c :: rest) then
      rep ++ replaceAllAux pat rep fuel ((c :: rest).drop pat.length)
    else c :: replaceAllAux pat rep fuel rest

/-- Rust's `str::replace` on character lists (for a non-empty pattern, the
only way the source uses it). -/
def replaceAll (pat rep s : List Char) : List Char :=
  replaceAllAux pat rep s.length s

/-- The backtick-quoted sentinel needle of `sanitize_message`. -/
def sentinelChars : List Char := "`evcxr_variable_store`".data

/-- The replacement text of `sanitize_message`. -/
def replacementChars : List Char := "<end of input>".data

/-- The bare sentinel identifier, without backticks. -/
def bareSentinelChars : List Char := "evcxr_variable_store".data

/-- The source's `sanitize_message`: replace every occurrence of the
backtick-quoted sentinel identifier with `<end of input>`. -/
def sanitize_message (message : String) : String :=
  ⟨replaceAll sentinelChars replacementChars message.data⟩

/-- A position range in the original user code, as in the source. -/
structure Span where
  start_line : Nat
  start_column : Nat
  end_line : Nat
  end_column : Nat
  byte_start : Nat
  byte_end : Nat
  code_block_id : Nat
  deriving DecidableEq

/-- A single diagnostic span message, as in the source. -/
structure SpannedMessage where
  span : Option Span
  lines : List String
  label : String
  is_primary : Bool
  deriving DecidableEq

/-- The span-construction block at the top of `SpannedMessage::from_json`:
build a user-coordinate `Span` from the record itself when its `file_name`
is the synthetic unit, its columns are present and its resolved origins
start and end in user code; `none` otherwise. -/
def direct_span (span_json : JsonValue) (cb : CodeBlock) : Option Span :=
  match (span_json.getKey "file_name").asStr,
        (span_json.getKey "column_start").asUsize,
        (span_json.getKey "column_end").asUsize with
  | some file_name, some start_column, some end_column =>
    if strEndsWith file_name "lib.rs" then
      let resolved := get_code_origins_for_span span_json cb
      match resolved.1.head?, resolved.1.getLast? with
      | some (CodeKind.originalUserCode s, start_line_offset),
        some (CodeKind.originalUserCode e, end_line_offset) =>
        some { start_line := s.start_line + start_line_offset
               start_column := start_column +
                 (if start_line_offset = 0 then s.column_offset else 0)
               end_line := e.start_line + end_line_offset
               end_column := end_column +
                 (if end_line_offset = 0 then e.column_offset else 0)
               byte_start := resolved.2.1
               byte_end := resolved.2.2
               code_block_id := s.node_index }
      | _, _ => none
    else none
  | _, _, _ => none

/-- The span-less fallback `SpannedMessage` built at the bottom of
`SpannedMessage::from_json` (also used when a direct span was built). -/
def defaultMessage (span_json : JsonValue) (span : Option Span) : SpannedMessage :=
  { span := span
    lines := []
    label := ((span_json.getKey "label").asStr).getD ""
    is_primary := ((span_json.getKey "is_primary").asBool).getD false }

/-- Fueled body of `SpannedMessage::from_json`: build a direct span, else
recurse into `expansion.span` and, when the inner message carries a span,
propagate it with the outer label (when present) and OR-ed `is_primary`. -/
def fromJsonAux (cb : CodeBlock) : Nat → JsonValue → SpannedMessage
  | 0, span_json => defaultMessage span_json (direct_span span_json cb)
  | fuel + 1, span_json =>
    let span := direct_span span_json cb
    if span.isNone then
      let expansion_span_json := (span_json.getKey "expansion").getKey "span"
      if expansion_span_json.isEmptyVal = false then
        let message := fromJsonAux cb fuel expansion_span_json
        if message.span.isSome then
          { message with
            label := match (span_json.getKey "label").asStr with
                     | some label => label
                     | none => message.label
            is_primary := message.is_primary ||
              ((span_json.getKey "is_primary").asBool).getD false }
        else defaultMessage span_json span
      else defaultMessage span_json span
    else defaultMessage span_json span

/-- The source's `SpannedMessage::from_json`. -/
def SpannedMessage.from_json (span_json : JsonValue) (cb : CodeBlock) : SpannedMessage :=
  fromJsonAux cb (jsize span_json) span_json

/-- The list of spanned messages before the generated-code filter of
`build_spanned_messages`: one `SpannedMessage::from_json` per span. -/
def rawSpannedMessages (json : JsonValue) (cb : CodeBlock) : List SpannedMessage :=
  let spans := json.getKey "spans"
  if spans.isArr then spans.arrToList.map fun sj => SpannedMessage.from_json sj cb
  else []

/-- The source's `build_spanned_messages`: if any message carries a span in
the user's code, drop all span-less messages; otherwise keep everything. -/
def build_spanned_messages (json : JsonValue) (cb : CodeBlock) : List SpannedMessage :=
  let output_spans := rawSpannedMessages json cb
  if output_spans.any fun s => s.span.isSome then
    output_spans.filter fun s => s.span.isSome
  else output_spans

/-- A structured compilation error, as in the source. -/
structure CompilationError where
  message : String
  json : JsonValue
  code_origins : List CodeKind
  spanned_messages : List SpannedMessage
  level : String
  deriving DecidableEq

/-- The Cargo-envelope unwrap at the top of `CompilationError::opt_new`:
replace the record by its `message` field when that field is an object. -/
def unwrapEnvelope (json : JsonValue) : JsonValue :=
  if (json.getKey "message").isObj then json.getKey "message" else json

/-- The `children` array of a record, as a list (empty when absent or not
an array). -/
def childList (json : JsonValue) : List JsonValue :=
  let children := json.getKey "children"
  if children.isArr then children.arrToList else []

/-- The child-promotion loop of `CompilationError::opt_new`: scan children
in order; when the accumulated origins have no user-supplied segment but a
child's do, promote that child (returning it and its origins); otherwise
merge the child's origins and continue. -/
def scanChildren (cb : CodeBlock) : List JsonValue → List CodeKind →
    Option JsonValue × List CodeKind
  | [], code_origins => (none, code_origins)
  | child :: rest, code_origins =>
    let child_origins := get_code_origins child cb
    if !(code_origins.any CodeKind.is_user_supplied) &&
        child_origins.any CodeKind.is_user_supplied then
      (some child, child_origins)
    else scanChildren cb rest (code_origins ++ child_origins)

/-- Whether a message is one of the compiler's epilogue summaries that
`opt_new` suppresses. -/
def isEpilogue (message : String) : Bool :=
  strStartsWith message "aborting due to" ||
  strStartsWith message "For more information about" ||
  strStartsWith message "Some errors occurred"

/-- The tail of `CompilationError::opt_new` after child promotion: reject
records without a string message and epilogue summaries, otherwise
assemble the error from the (possibly promoted) record and the collected
origins. -/
def assembleRecord (json : JsonValue) (code_origins : List CodeKind)
    (cb : CodeBlock) : Option CompilationError :=
  match (json.getKey "message").asStr with
  | some message =>
    if isEpilogue message then none
    else
      some { spanned_messages := build_spanned_messages json cb
             message := sanitize_message message
             level := ((json.getKey "level").asStr).getD ""
             json := json
             code_origins := code_origins }
  | none => none

/-- The record `opt_new` works on after envelope unwrapping and child
promotion. -/
def finalRecord (json : JsonValue) (cb : CodeBlock) : JsonValue :=
  let j := unwrapEnvelope json
  ((scanChildren cb (childList j) (get_code_origins j cb)).1).getD j

/-- The origin list `opt_new` attaches after envelope unwrapping and child
promotion. -/
def finalOrigins (json : JsonValue) (cb : CodeBlock) : List CodeKind :=
  let j := unwrapEnvelope json
  (scanChildren cb (childList j) (get_code_origins j cb)).2

/-- The source's `CompilationError::opt_new`. -/
def CompilationError.opt_new (json : JsonValue) (cb : CodeBlock) :
    Option CompilationError :=
  assembleRecord (finalRecord json cb) (finalOrigins json cb) cb

/-- Split a character list at every newline; n newlines yield n+1 pieces. -/
def splitNl : List Char → List (List Char)
  | [] => [[]]
  | c :: rest =>
    if c = '\n' then [] :: splitNl rest
    else
      match splitNl rest with
      | [] => [[c]]
      | p :: ps => (c :: p) :: ps

/-- Strip one trailing carriage return, as Rust's `str::lines` does per line. -/
def stripCr (line : List Char) : List Char :=
  if line.getLast? = some '\r' then line.dropLast else line

/-- Rust's `str::lines`: split at newlines, with no final empty line when
the text ends in a newline, and no line at all for the empty text. -/
def rustLines (s : List Char) : List (List Char) :=
  (if s = [] then []
   else if s.getLast? = some '\n' then (splitNl s).dropLast
   else splitNl s).map stripCr

/-- The UTF-8 prefix of a character list up to a byte position (Rust's
`&text[..position]`; positions inside a character truncate at the previous
boundary, where Rust would panic, which no claim exercises). -/
def takeBytes : Nat → List Char → List Char
  | 0, _ => []
  | _, [] => []
  | n, c :: rest => if c.utf8Size ≤ n then c :: takeBytes (n - c.utf8Size) rest else []

/-- A byte range inside a segment's code (`ra_ap_ide::TextRange`): `start`
and `stop` are the `range.start()` and `range.end()` byte offsets. -/
structure TextRange where
  start : Nat
  stop : Nat

/-- The source's `line_and_column`, parametrised by `count_columns`
(modelled from the spec: `count_columns` of `code_block.rs` measures
display columns and is not among the staged sources, so it is kept
abstract). -/
def line_and_column (count_columns : List Char → Nat) (text : String)
    (position : Nat) (first_line_column_offset : Nat) (start_line : Nat) :
    Nat × Nat :=
  let text := takeBytes position text.data
  let line := (rustLines text).length
  let column := (((rustLines text).getLast?).map count_columns).getD 0 + 1
  let column := if line = 1 then column + first_line_column_offset else column
  (start_line + line - 1, column)

/-- The source's `Span::from_segment`: a span for a text range of a
user-code segment, `none` for any other segment kind. -/
def Span.from_segment (count_columns : List Char → Nat) (segment : Segment)
    (range : TextRange) : Option Span :=
  match segment.kind with
  | CodeKind.originalUserCode meta =>
    let s := line_and_column count_columns segment.code range.start
      meta.column_offset meta.start_line
    let e := line_and_column count_columns segment.code range.stop
      meta.column_offset meta.start_line
    some { start_line := s.1
           start_column := s.2
           end_line := e.1
           end_column := e.2
           byte_start := s.2
           byte_end := e.2
           code_block_id := 0 }
  | CodeKind.otherGeneratedCode => none

/-- Index of the first occurrence of `pat` in a character list. -/
def findIdxSub (pat : List Char) : List Char → Option Nat
  | [] => if pat.isEmpty then some 0 else none
  | c :: rest =>
    if pat.isPrefixOf (c :: rest) then some 0
    else (findIdxSub pat rest).map fun i => i + 1

/-- Start indices of every occurrence of `pat` in a character list. -/
def occIdxs (pat : List Char) : List Char → List Nat
  | [] => if pat.isEmpty then [0] else []
  | c :: rest =>
    (if pat.isPrefixOf (c :: rest) then [0] else []) ++
      (occIdxs pat rest).map fun i => i + 1

/-- The characters before the first newline. -/
def firstLine (s : List Char) : List Char := s.takeWhile fun c => !(c == '\n')

/-- Greedy match of the regex fragment `.* `(.*)`` (dot not matching
newline) against the text following a `found`: the capture runs from two
past the last  `` ` `` preceded by a space that still leaves a closing
backtick, to the last backtick of that line. -/
def p1Complete (u : List Char) : Option (List Char) :=
  let u1 := firstLine u
  match (occIdxs "`".data u1).getLast? with
  | none => none
  | some l =>
    match ((occIdxs " `".data u1).filter fun k => decide (k + 2 ≤ l)).getLast? with
    | none => none
    | some k => some ((u1.drop (k + 2)).take (l - (k + 2)))

/-- The capture of the source's first pattern
`` *expected (?s:.)*found.* `(.*)``` under the regex crate's
leftmost-first, greedy semantics: anchor at the first `expected `, take the
last `found` after it whose line completes the pattern, and within that
line capture per `p1Complete`. -/
def p1Capture (s : List Char) : Option (List Char) :=
  match findIdxSub "expected ".data s with
  | none => none
  | some i =>
    let p := i + 9
    match ((occIdxs "found".data s).filter fun j =>
        decide (p ≤ j) && (p1Complete (s.drop (j + 5))).isSome).getLast? with
    | none => none
    | some j => p1Complete (s.drop (j + 5))

/-- Greedy match of ` found (integer|float)` after an `expected ` at the
start of `t` (dot not matching newline): the last ` found ` on the same
line followed by `integer` or `float`, with `integer` preferred. -/
def p2At (t : List Char) : Option (List Char) :=
  let js := (occIdxs " found ".data t).filter fun j =>
    ((t.take j).all fun c => !(c == '\n')) &&
    ("integer".data.isPrefixOf (t.drop (j + 7)) ||
     "float".data.isPrefixOf (t.drop (j + 7)))
  match js.getLast? with
  | none => none
  | some j =>
    if "integer".data.isPrefixOf (t.drop (j + 7)) then some "integer".data
    else some "float".data

/-- Try `p2At` at each `expected ` occurrence in order (leftmost-first). -/
def p2Go (s : List Char) : List Nat → Option (List Char)
  | [] => none
  | i :: rest =>
    match p2At (s.drop (i + 9)) with
    | some capture => some capture
    | none => p2Go s rest

/-- The capture of the source's fallback pattern
`expected .* found (integer|float)` under leftmost-first, greedy
semantics. -/
def p2Capture (s : List Char) : Option (List Char) :=
  p2Go s (occIdxs "expected ".data s)

/-- The `spans` array of a record, as a list (empty when absent or not an
array). -/
def spanList (json : JsonValue) : List JsonValue :=
  let spans := json.getKey "spans"
  if spans.isArr then spans.arrToList else []

/-- The children loop of `get_actual_type`: the first child whose string
message matches the first pattern. -/
def childMsgsP1 : List JsonValue → Option (List Char)
  | [] => none
  | child :: rest =>
    match (child.getKey "message").asStr with
    | some message =>
      match p1Capture message.data with
      | some t => some t
      | none => childMsgsP1 rest
    | none => childMsgsP1 rest

/-- The spans loop of `get_actual_type`: per label, the first pattern then
the fallback pattern. -/
def spanLabels : List JsonValue → Option (List Char)
  | [] => none
  | sp :: rest =>
    match (sp.getKey "label").asStr with
    | some label =>
      match p1Capture label.data with
      | some t => some t
      | none =>
        match p2Capture label.data with
        | some t => some t
        | none => spanLabels rest
    | none => spanLabels rest

/-- The source's `get_actual_type` over the stored record: children's
messages against the first pattern, then span labels against the first
pattern and the unquoted fallback. -/
def getActualType (json : JsonValue) : Option String :=
  match childMsgsP1 (childList json) with
  | some t => some ⟨t⟩
  | none => (spanLabels (spanList json)).map fun t => (⟨t⟩ : String)

/-- The source's `CompilationError::get_actual_type`. -/
def CompilationError.get_actual_type (e : CompilationError) : Option String :=
  getActualType e.json

/-- Fueled expansion chain of a span record, following `expansion.span`
while `expansion` is an object (the walk of `spans_in_local_source`). -/
def chainAux : Nat → JsonValue → List JsonValue
  | 0, span => [span]
  | fuel + 1, span =>
    span ::
      (let expansion := span.getKey "expansion"
       if expansion.isObj then chainAux fuel (expansion.getKey "span") else [])

/-- The expansion chain a diagnostic span record carries: the record, then
the records reached through `expansion.span` while `expansion` is an
object. -/
def expansionChain (span : JsonValue) : List JsonValue :=
  chainAux (jsize span) span

/-- Fueled expansion chain as `SpannedMessage::from_json` walks it,
following `expansion.span` while that value is non-empty. -/
def fjChainAux : Nat → JsonValue → List JsonValue
  | 0, span_json => [span_json]
  | fuel + 1, span_json =>
    span_json ::
      (let esj := (span_json.getKey "expansion").getKey "span"
       if esj.isEmptyVal then [] else fjChainAux fuel esj)

/-- The expansion chain `SpannedMessage::from_json` recurses along. -/
def fromJsonChain (span_json : JsonValue) : List JsonValue :=
  fjChainAux (jsize span_json) span_json

/-- Each segment paired with the total code length of the segments before
it. -/
def withSums : List Segment → Nat → List (Segment × Nat)
  | [], _ => []
  | x :: rest, acc => (x, acc) :: withSums rest (acc + segLen x)

/-- Specification-side byte resolution, in the claim's words: walk the
segments in order, subtracting each segment's code length, stopping as
soon as the remaining offset is smaller than the current segment's length
or the current segment is user code. -/
def resolveBytesSpec (segments : List Segment) (b : Nat) : Nat :=
  b - (((withSums segments 0).takeWhile fun p =>
    decide (segLen p.1 ≤ b - p.2) && !(isUserSeg p.1)).map fun p => segLen p.1).sum

/-- Each child paired with the origin list accumulated before it is
scanned (specification side of the child-promotion loop). -/
def childrenWithAcc (cb : CodeBlock) : List JsonValue → List CodeKind →
    List (JsonValue × List CodeKind)
  | [], _ => []
  | child :: rest, acc =>
    (child, acc) :: childrenWithAcc cb rest (acc ++ get_code_origins child cb)

/-- The backtick character, by code point (it may not appear literally
outside strings in this file). -/
def backtickChar : Char := Char.ofNat 96

/-- Fixture: a code block whose every line resolves to one user segment. -/
def cbUser : CodeBlock := ⟨[], fun _ => (CodeKind.originalUserCode ⟨1, 0, 7⟩, 0)⟩

/-- Fixture: a code block whose every line resolves to generated code. -/
def cbGen : CodeBlock := ⟨[], fun _ => (CodeKind.otherGeneratedCode, 0)⟩

/-- Fixture: a span record in the synthetic unit resolving to user code. -/
def userSpanJson : JsonValue := JsonValue.objOf
  [("file_name", JsonValue.str "/x/lib.rs"),
   ("line_start", JsonValue.num 3), ("line_end", JsonValue.num 3),
   ("column_start", JsonValue.num 5), ("column_end", JsonValue.num 9),
   ("byte_start", JsonValue.num 40), ("byte_end", JsonValue.num 44),
   ("label", JsonValue.str "inner"), ("is_primary", JsonValue.bool true)]

/-- Fixture: a span record outside the synthetic unit. -/
def nonLocalSpanJson : JsonValue := JsonValue.objOf
  [("file_name", JsonValue.str "/x/other.rs"),
   ("column_start", JsonValue.num 1), ("column_end", JsonValue.num 2),
   ("label", JsonValue.str "generated side")]

/-- Fixture: a record with one user-resolving span and one span-less span. -/
def mixedRecord : JsonValue := JsonValue.objOf
  [("message", JsonValue.str "mix"),
   ("spans", JsonValue.arrOf [userSpanJson, nonLocalSpanJson])]

/-- Fixture: a record whose only span does not resolve to user code. -/
def genRecord : JsonValue := JsonValue.objOf
  [("message", JsonValue.str "gen"),
   ("spans", JsonValue.arrOf [nonLocalSpanJson])]

/-- Fixture: a span record with no label whose expansion span resolves to
user code and carries the label `inner`. -/
def outerNoLabel : JsonValue := JsonValue.objOf
  [("expansion", JsonValue.objOf [("span", userSpanJson)])]

/-- Fixture: like `outerNoLabel` but carrying its own label `outer`. -/
def outerWithLabel : JsonValue := JsonValue.objOf
  [("label", JsonValue.str "outer"), ("is_primary", JsonValue.bool false),
   ("expansion", JsonValue.objOf [("span", userSpanJson)])]

/-- Fixture: the epilogue record of scenario S1. -/
def epilogueRecord : JsonValue := JsonValue.objOf
  [("message", JsonValue.str "aborting due to previous error"),
   ("level", JsonValue.str "error"),
   ("spans", JsonValue.arrNil), ("children", JsonValue.arrNil)]

/-- Fixture: a minimal record carrying only a message. -/
def simpleRecord : JsonValue := JsonValue.objOf [("message", JsonValue.str "x")]

/-- Fixture: the sentinel-sanitisation record of scenario S2. -/
def sentinelRecord : JsonValue := JsonValue.objOf
  [("message", JsonValue.str "expected `;`, found `evcxr_variable_store`")]

/-- Fixture: the child-message record of scenario S4. -/
def s4Record : JsonValue := JsonValue.objOf
  [("children", JsonValue.arrOf [JsonValue.objOf
    [("message", JsonValue.str "expected struct `String`, found enum `Option<String>`")]])]

/-- Fixture: the span-label record of scenario S5. -/
def s5Record : JsonValue := JsonValue.objOf
  [("spans", JsonValue.arrOf [JsonValue.objOf
    [("label", JsonValue.str "expected String, found integer")]])]

/-- Fixture: a record matching neither type-extraction pattern. -/
def noTypeRecord : JsonValue := JsonValue.objOf
  [("children", JsonValue.arrOf [JsonValue.objOf [("message", JsonValue.str "hello")]]),
   ("spans", JsonValue.arrOf [JsonValue.objOf [("label", JsonValue.str "nope")]])]

/-- Fixture: an error whose stored record is `s4Record`. -/
def s4Error : CompilationError := ⟨"", s4Record, [], [], "error"⟩

/-- Fixture: an error whose stored record is `s5Record`. -/
def s5Error : CompilationError := ⟨"", s5Record, [], [], "error"⟩

/-- Fixture: a span record in the synthetic unit (used with `cbGen`, its
origins are generated code). -/
def genLocalSpanJson : JsonValue := JsonValue.objOf
  [("file_name", JsonValue.str "/x/lib.rs"),
   ("line_start", JsonValue.num 1), ("line_end", JsonValue.num 1),
   ("column_start", JsonValue.num 2), ("column_end", JsonValue.num 3),
   ("byte_start", JsonValue.num 0), ("byte_end", JsonValue.num 1),
   ("label", JsonValue.str "borrow ends here")]

/-- Fixture: a user-code segment for `Span::from_segment`. -/
def userSegment : Segment := ⟨CodeKind.originalUserCode ⟨1, 0, 0⟩, "ab\ncd"⟩

/-- Fixture: a generated segment for `Span::from_segment`. -/
def genSegment : Segment := ⟨CodeKind.otherGeneratedCode, "let x;"⟩

/-- Every JSON value has positive structural size. -/
theorem one_le_jsize (j : JsonValue) : 1 ≤ jsize j := by
  cases j <;> simp [jsize] <;> omega

/-- Field lookup returns either null or a strictly smaller subvalue. -/
theorem jsize_getKey (j : JsonValue) (key : String) :
    jsize (j.getKey key) < jsize j ∨ j.getKey key = JsonValue.null := by
  induction j with
  | objCons k v rest _ ihrest =>
    simp only [JsonValue.getKey]
    by_cases hk : k = key
    · left
      subst hk
      rw [if_pos rfl]
      simp only [jsize]
      omega
    · simp only [hk, if_neg, ite_false]
      rcases ihrest with h | h
      · left
        simp only [jsize]
        omega
      · right
        exact h
  | arrCons h t _ _ => right; rfl
  | null => right; rfl
  | bool b => right; rfl
  | num n => right; rfl
  | str s => right; rfl
  | arrNil => right; rfl
  | objNil => right; rfl

/-- Field lookup at a non-null result strictly shrinks the value. -/
theorem getKey_ne_null_lt {j : JsonValue} {key : String}
    (h : j.getKey key ≠ JsonValue.null) : jsize (j.getKey key) < jsize j :=
  (jsize_getKey j key).resolve_right h

/-- An object is not null. -/
theorem isObj_ne_null {j : JsonValue} (h : j.isObj = true) : j ≠ JsonValue.null := by
  intro hn
  subst hn
  simp [JsonValue.isObj] at h

/-- The step of the `spans_in_local_source` walk strictly shrinks the
record. -/
theorem jsize_chain_lt {span : JsonValue}
    (h : (span.getKey "expansion").isObj = true) :
    jsize ((span.getKey "expansion").getKey "span") < jsize span := by
  have h1 : jsize (span.getKey "expansion") < jsize span :=
    getKey_ne_null_lt (isObj_ne_null h)
  have h0 := one_le_jsize (span.getKey "expansion")
  rcases jsize_getKey (span.getKey "expansion") "span" with h2 | h2
  · omega
  · rw [h2]
    have h3 : jsize JsonValue.null = 1 := rfl
    omega

/-- The step of the `from_json` expansion walk strictly shrinks the
record. -/
theorem jsize_esj_lt {span_json : JsonValue}
    (h : ((span_json.getKey "expansion").getKey "span").isEmptyVal = false) :
    jsize ((span_json.getKey "expansion").getKey "span") < jsize span_json := by
  have hne : (span_json.getKey "expansion").getKey "span" ≠ JsonValue.null := by
    intro hnull
    rw [hnull] at h
    simp [JsonValue.isEmptyVal] at h
  have he : span_json.getKey "expansion" ≠ JsonValue.null := by
    intro hnull
    rw [hnull] at hne
    exact hne rfl
  have h1 := getKey_ne_null_lt he
  have h2 := getKey_ne_null_lt hne
  omega

/-- Fuel irrelevance for the local-span walk: any fuel at least the size of
the record gives the same answer. -/
theorem slsAux_congr : ∀ (n m : Nat) (span : JsonValue),
    jsize span ≤ n → jsize span ≤ m → slsAux n span = slsAux m span := by
  intro n
  induction n with
  | zero =>
    intro m span h _
    have := one_le_jsize span
    omega
  | succ n ih =>
    intro m span hn hm
    obtain ⟨m', rfl⟩ : ∃ m', m = m' + 1 :=
      ⟨m - 1, by have := one_le_jsize span; omega⟩
    simp only [slsAux]
    by_cases hL : isLocalSpan span = true
    · simp [hL]
    · simp only [Bool.not_eq_true] at hL
      simp only [hL, Bool.false_eq_true, if_false]
      by_cases hO : (span.getKey "expansion").isObj = true
      · simp only [hO, if_true]
        have hlt := jsize_chain_lt hO
        exact ih m' _ (by omega) (by omega)
      · simp only [Bool.not_eq_true] at hO
        simp [hO]

/-- Unfolding equation for `spans_in_local_source`, matching the source's
recursion. -/
theorem spans_in_local_source_eq (span : JsonValue) :
    spans_in_local_source span =
      if isLocalSpan span then some span
      else if (span.getKey "expansion").isObj then
        spans_in_local_source ((span.getKey "expansion").getKey "span")
      else none := by
  have h1 := one_le_jsize span
  obtain ⟨k, hk⟩ : ∃ k, jsize span = k + 1 := ⟨jsize span - 1, by omega⟩
  unfold spans_in_local_source
  rw [hk]
  simp only [slsAux]
  by_cases hL : isLocalSpan span = true
  · simp [hL]
  · simp only [Bool.not_eq_true] at hL
    simp only [hL, Bool.false_eq_true, if_false]
    by_cases hO : (span.getKey "expansion").isObj = true
    · simp only [hO, if_true]
      have hlt := jsize_chain_lt hO
      exact slsAux_congr k _ _ (by omega) (le_refl _)
    · simp only [Bool.not_eq_true] at hO
      simp [hO]

/-- Fuel irrelevance for the expansion chain. -/
theorem chainAux_congr : ∀ (n m : Nat) (span : JsonValue),
    jsize span ≤ n → jsize span ≤ m → chainAux n span = chainAux m span := by
  intro n
  induction n with
  | zero =>
    intro m span h _
    have := one_le_jsize span
    omega
  | succ n ih =>
    intro m span hn hm
    obtain ⟨m', rfl⟩ : ∃ m', m = m' + 1 :=
      ⟨m - 1, by have := one_le_jsize span; omega⟩
    simp only [chainAux]
    by_cases hO : (span.getKey "expansion").isObj = true
    · simp only [hO, if_true]
      have hlt := jsize_chain_lt hO
      rw [ih m' _ (by omega) (by omega)]
    · simp only [Bool.not_eq_true] at hO
      simp [hO]

/-- Unfolding equation for `expansionChain`. -/
theorem expansionChain_eq (span : JsonValue) :
    expansionChain span =
      span ::
        (if (span.getKey "expansion").isObj then
          expansionChain ((span.getKey "expansion").getKey "span")
        else []) := by
  have h1 := one_le_jsize span
  obtain ⟨k, hk⟩ : ∃ k, jsize span = k + 1 := ⟨jsize span - 1, by omega⟩
  unfold expansionChain
  rw [hk]
  simp only [chainAux]
  by_cases hO : (span.getKey "expansion").isObj = true
  · simp only [hO, if_true]
    have hlt := jsize_chain_lt hO
    rw [chainAux_congr k _ _ (by omega) (le_refl _)]
  · simp only [Bool.not_eq_true] at hO
    simp [hO]

/-- The local-span walk searches the expansion chain for a `lib.rs` span
(auxiliary form, fuel-bounded). -/
theorem sls_find_aux : ∀ (n : Nat) (span : JsonValue), jsize span ≤ n →
    spans_in_local_source span = (expansionChain span).find? isLocalSpan := by
  intro n
  induction n with
  | zero =>
    intro span h
    have := one_le_jsize span
    omega
  | succ n ih =>
    intro span hn
    rw [spans_in_local_source_eq, expansionChain_eq]
    by_cases hL : isLocalSpan span = true
    · rw [if_pos hL, List.find?_cons_of_pos _ hL]
    · simp only [Bool.not_eq_true] at hL
      rw [if_neg (by simp [hL]), List.find?_cons_of_neg _ (by simp [hL])]
      by_cases hO : (span.getKey "expansion").isObj = true
      · rw [if_pos hO, if_pos hO]
        have hlt := jsize_chain_lt hO
        exact ih _ (by omega)
      · simp only [Bool.not_eq_true] at hO
        rw [if_neg (by simp [hO]), if_neg (by simp [hO])]
        rfl

/-- The local-span walk of the source equals a search of the expansion
chain for the first record naming the synthetic unit. -/
theorem sls_eq_find (span : JsonValue) :
    spans_in_local_source span = (expansionChain span).find? isLocalSpan :=
  sls_find_aux (jsize span) span (le_refl _)

/-- The byte walk with a running offset, against the take-while reading of
the claim (auxiliary form with an explicit base offset). -/
theorem walk_spec_aux : ∀ (segments : List Segment) (b o : Nat),
    walkBytes segments (b - o) =
      (b - o) - (((withSums segments o).takeWhile fun p =>
        decide (segLen p.1 ≤ b - p.2) && !(isUserSeg p.1)).map fun p => segLen p.1).sum := by
  intro segments
  induction segments with
  | nil =>
    intro b o
    simp [walkBytes, withSums]
  | cons x rest ih =>
    intro b o
    simp only [walkBytes, withSums, List.takeWhile_cons]
    by_cases hlen : segLen x ≤ b - o
    · by_cases huser : isUserSeg x = true
      · rw [if_neg (by omega), if_pos huser]
        simp [hlen, huser]
      · simp only [Bool.not_eq_true] at huser
        rw [if_neg (by omega), if_neg (by simp [huser])]
        have hx : (decide (segLen x ≤ b - o) && !isUserSeg x) = true := by
          simp [hlen, huser]
        rw [if_pos hx]
        have h2 := ih b (o + segLen x)
        have h3 : b - (o + segLen x) = b - o - segLen x := by omega
        rw [h3] at h2
        rw [h2]
        simp only [List.map_cons, List.sum_cons]
        omega
    · rw [if_pos (by omega)]
      have hx : (decide (segLen x ≤ b - o) && !isUserSeg x) = false := by
        simp [hlen]
      rw [hx]
      simp

/-- The byte walk of the source equals the specification-side take-while
resolution. -/
theorem walkBytes_eq_spec (segments : List Segment) (b : Nat) :
    walkBytes segments b = resolveBytesSpec segments b := by
  have h := walk_spec_aux segments b 0
  simpa [resolveBytesSpec] using h

/-- C1: the origin resolver returns `([], (0,0))` when the expansion chain
never reaches a `lib.rs` span; otherwise it maps each line of
`line_start..=line_end` through `origin_for_line` and resolves the raw byte
range plus the 20-byte prologue offset by walking the segments in order,
subtracting each segment's code length, stopping as soon as the remaining
offset is smaller than the current segment's length or the current segment
is user code. -/
theorem claim_C1 (span : JsonValue) (cb : CodeBlock) :
    spans_in_local_source span = (expansionChain span).find? isLocalSpan ∧
    get_code_origins_for_span span cb =
      (match (expansionChain span).find? isLocalSpan with
       | none => ([], (0, 0))
       | some sp =>
         ((match (sp.getKey "line_start").asUsize, (sp.getKey "line_end").asUsize with
           | some line_start, some line_end =>
             (List.range' line_start (line_end + 1 - line_start)).map cb.origin_for_line
           | _, _ => []),
          (resolveBytesSpec cb.segments (((sp.getKey "byte_start").asUsize.getD 0) + 20),
           resolveBytesSpec cb.segments (((sp.getKey "byte_end").asUsize.getD 0) + 20)))) := by
  refine ⟨sls_eq_find span, ?_⟩
  unfold get_code_origins_for_span
  rw [sls_eq_find span]
  cases hfind : (expansionChain span).find? isLocalSpan with
  | none => rfl
  | some sp =>
    simp only [lineOrigins, walkBytes_eq_spec]

/-- The child-promotion loop, characterised by a search over the children
paired with the origins accumulated before each. -/
theorem scanChildren_eq_find (cb : CodeBlock) :
    ∀ (children : List JsonValue) (acc : List CodeKind),
    scanChildren cb children acc =
      (match (childrenWithAcc cb children acc).find? (fun p =>
          !(p.2.any CodeKind.is_user_supplied) &&
          (get_code_origins p.1 cb).any CodeKind.is_user_supplied) with
       | some p => (some p.1, get_code_origins p.1 cb)
       | none => (none, acc ++ (children.map fun c => get_code_origins c cb).flatten)) := by
  intro children
  induction children with
  | nil =>
    intro acc
    simp [scanChildren, childrenWithAcc]
  | cons child rest ih =>
    intro acc
    simp only [scanChildren, childrenWithAcc]
    by_cases hc : (!(acc.any CodeKind.is_user_supplied) &&
        (get_code_origins child cb).any CodeKind.is_user_supplied) = true
    · have h3 : List.find? (fun p =>
          !(p.2.any CodeKind.is_user_supplied) &&
          (get_code_origins p.1 cb).any CodeKind.is_user_supplied)
          ((child, acc) :: childrenWithAcc cb rest (acc ++ get_code_origins child cb)) =
          some (child, acc) :=
        List.find?_cons_of_pos _ hc
      rw [if_pos hc, h3]
    · have h3 : List.find? (fun p =>
          !(p.2.any CodeKind.is_user_supplied) &&
          (get_code_origins p.1 cb).any CodeKind.is_user_supplied)
          ((child, acc) :: childrenWithAcc cb rest (acc ++ get_code_origins child cb)) =
          List.find? (fun p =>
            !(p.2.any CodeKind.is_user_supplied) &&
            (get_code_origins p.1 cb).any CodeKind.is_user_supplied)
          (childrenWithAcc cb rest (acc ++ get_code_origins child cb)) :=
        List.find?_cons_of_neg _ hc
      rw [if_neg hc, h3, ih (acc ++ get_code_origins child cb)]
      cases (childrenWithAcc cb rest (acc ++ get_code_origins child cb)).find? (fun p =>
          !(p.2.any CodeKind.is_user_supplied) &&
          (get_code_origins p.1 cb).any CodeKind.is_user_supplied) with
      | none => simp [List.append_assoc]
      | some p => rfl

/-- C2: scanning the children in order, the first child whose origins
contain user code while the origins accumulated so far do not replaces the
working record (its origins becoming the error's origins) and scanning
stops; every other child merely merges its origins; and the assembled
error is built from the promoted record and those origins. -/
theorem claim_C2 (cb : CodeBlock) (children : List JsonValue)
    (acc : List CodeKind) (json : JsonValue) :
    scanChildren cb children acc =
      (match (childrenWithAcc cb children acc).find? (fun p =>
          !(p.2.any CodeKind.is_user_supplied) &&
          (get_code_origins p.1 cb).any CodeKind.is_user_supplied) with
       | some p => (some p.1, get_code_origins p.1 cb)
       | none => (none, acc ++ (children.map fun c => get_code_origins c cb).flatten)) ∧
    CompilationError.opt_new json cb =
      assembleRecord (finalRecord json cb) (finalOrigins json cb) cb :=
  ⟨scanChildren_eq_find cb children acc, rfl⟩

/-- Every element of a filtered list satisfies the filter. -/
theorem all_filter_self (l : List SpannedMessage) :
    ((l.filter fun s => s.span.isSome).all fun s => s.span.isSome) = true := by
  rw [List.all_eq_true]
  intro s hs
  exact (List.mem_filter.mp hs).2

/-- C3: a compilation error's spanned messages are never a mix — if any
message carries a user-coordinate span then the filter keeps only such
messages (so all carry one), and if none does the raw list is kept
unchanged. -/
theorem claim_C3 (json : JsonValue) (cb : CodeBlock) :
    (((build_spanned_messages json cb).any fun s => s.span.isSome) = true →
      ((build_spanned_messages json cb).all fun s => s.span.isSome) = true) ∧
    (((build_spanned_messages json cb).any fun s => s.span.isSome) = false →
      build_spanned_messages json cb = rawSpannedMessages json cb) ∧
    (∀ e, CompilationError.opt_new json cb = some e →
      e.spanned_messages = build_spanned_messages e.json cb) := by
  refine ⟨?_, ?_, ?_⟩
  · intro h
    unfold build_spanned_messages at h ⊢
    by_cases hr : ((rawSpannedMessages json cb).any fun s => s.span.isSome) = true
    · rw [if_pos hr]
      exact all_filter_self _
    · rw [if_neg hr] at h
      exact absurd h hr
  · intro h
    unfold build_spanned_messages at h ⊢
    by_cases hr : ((rawSpannedMessages json cb).any fun s => s.span.isSome) = true
    · rw [if_pos hr] at h
      rw [List.any_eq_true] at hr
      rcases hr with ⟨x, hxm, hxs⟩
      rw [List.any_eq_false] at h
      exact absurd hxs (h x (List.mem_filter.mpr ⟨hxm, hxs⟩))
    · rw [if_neg hr]
  · intro e he
    unfold CompilationError.opt_new assembleRecord at he
    split at he
    · split at he
      · exact absurd he (by simp)
      · injection he with he2
        rw [← he2]
    · exact absurd he (by simp)

/-- Witness for C3 at concrete records: a record with one user span and
one generated span keeps only spanned entries; a record with only a
generated span keeps its raw list. -/
theorem claim_C3_witness :
    ((build_spanned_messages mixedRecord cbUser).all fun s => s.span.isSome) = true ∧
    build_spanned_messages genRecord cbUser = rawSpannedMessages genRecord cbUser :=
  ⟨(claim_C3 mixedRecord cbUser).1 (by decide),
   (claim_C3 genRecord cbUser).2.1 (by decide)⟩

/-- Fuel irrelevance for the spanned-message builder. -/
theorem fromJsonAux_congr (cb : CodeBlock) : ∀ (n m : Nat) (span_json : JsonValue),
    jsize span_json ≤ n → jsize span_json ≤ m →
    fromJsonAux cb n span_json = fromJsonAux cb m span_json := by
  intro n
  induction n with
  | zero =>
    intro m span_json h _
    have := one_le_jsize span_json
    omega
  | succ n ih =>
    intro m span_json hn hm
    obtain ⟨m', rfl⟩ : ∃ m', m = m' + 1 :=
      ⟨m - 1, by have := one_le_jsize span_json; omega⟩
    simp only [fromJsonAux]
    by_cases hd : (direct_span span_json cb).isNone = true
    · rw [if_pos hd, if_pos hd]
      by_cases hE : ((span_json.getKey "expansion").getKey "span").isEmptyVal = false
      · rw [if_pos hE, if_pos hE]
        have hlt := jsize_esj_lt hE
        rw [ih m' _ (by omega) (by omega)]
      · rw [if_neg hE, if_neg hE]
    · rw [if_neg hd, if_neg hd]

/-- Unfolding equation for `SpannedMessage.from_json`, matching the
source's recursion. -/
theorem from_json_unfold (span_json : JsonValue) (cb : CodeBlock) :
    SpannedMessage.from_json span_json cb =
      (if (direct_span span_json cb).isNone = true then
        (if ((span_json.getKey "expansion").getKey "span").isEmptyVal = false then
          (if (SpannedMessage.from_json
              ((span_json.getKey "expansion").getKey "span") cb).span.isSome = true then
            { SpannedMessage.from_json
                ((span_json.getKey "expansion").getKey "span") cb with
              label := match (span_json.getKey "label").asStr with
                       | some label => label
                       | none => (SpannedMessage.from_json
                           ((span_json.getKey "expansion").getKey "span") cb).label
              is_primary := (SpannedMessage.from_json
                  ((span_json.getKey "expansion").getKey "span") cb).is_primary ||
                ((span_json.getKey "is_primary").asBool).getD false }
          else defaultMessage span_json (direct_span span_json cb))
        else defaultMessage span_json (direct_span span_json cb))
      else defaultMessage span_json (direct_span span_json cb)) := by
  have h1 := one_le_jsize span_json
  obtain ⟨k, hk⟩ : ∃ k, jsize span_json = k + 1 := ⟨jsize span_json - 1, by omega⟩
  unfold SpannedMessage.from_json
  rw [hk]
  simp only [fromJsonAux]
  by_cases hd : (direct_span span_json cb).isNone = true
  · rw [if_pos hd, if_pos hd]
    by_cases hE : ((span_json.getKey "expansion").getKey "span").isEmptyVal = false
    · rw [if_pos hE, if_pos hE]
      have hlt := jsize_esj_lt hE
      rw [fromJsonAux_congr cb k _ _ (by omega) (le_refl _)]
    · rw [if_neg hE, if_neg hE]
  · rw [if_neg hd, if_neg hd]

/-- Fuel irrelevance for the builder's expansion chain. -/
theorem fjChainAux_congr : ∀ (n m : Nat) (span_json : JsonValue),
    jsize span_json ≤ n → jsize span_json ≤ m →
    fjChainAux n span_json = fjChainAux m span_json := by
  intro n
  induction n with
  | zero =>
    intro m span_json h _
    have := one_le_jsize span_json
    omega
  | succ n ih =>
    intro m span_json hn hm
    obtain ⟨m', rfl⟩ : ∃ m', m = m' + 1 :=
      ⟨m - 1, by have := one_le_jsize span_json; omega⟩
    simp only [fjChainAux]
    by_cases hE : ((span_json.getKey "expansion").getKey "span").isEmptyVal = true
    · rw [if_pos hE, if_pos hE]
    · rw [if_neg hE, if_neg hE]
      have hE2 : ((span_json.getKey "expansion").getKey "span").isEmptyVal = false := by
        cases h2 : ((span_json.getKey "expansion").getKey "span").isEmptyVal
        · rfl
        · exact absurd h2 hE
      have hlt := jsize_esj_lt hE2
      rw [ih m' _ (by omega) (by omega)]

/-- Unfolding equation for `fromJsonChain`. -/
theorem fromJsonChain_eq (span_json : JsonValue) :
    fromJsonChain span_json =
      span_json ::
        (if ((span_json.getKey "expansion").getKey "span").isEmptyVal then []
         else fromJsonChain ((span_json.getKey "expansion").getKey "span")) := by
  have h1 := one_le_jsize span_json
  obtain ⟨k, hk⟩ : ∃ k, jsize span_json = k + 1 := ⟨jsize span_json - 1, by omega⟩
  unfold fromJsonChain
  rw [hk]
  simp only [fjChainAux]
  by_cases hE : ((span_json.getKey "expansion").getKey "span").isEmptyVal = true
  · rw [if_pos hE, if_pos hE]
  · rw [if_neg hE, if_neg hE]
    have hE2 : ((span_json.getKey "expansion").getKey "span").isEmptyVal = false := by
      cases h2 : ((span_json.getKey "expansion").getKey "span").isEmptyVal
      · rfl
      · exact absurd h2 hE
    have hlt := jsize_esj_lt hE2
    rw [fjChainAux_congr k _ _ (by omega) (le_refl _)]

/-- C4 in fuel-bounded form: when no record along the builder's expansion
chain yields a direct user-coordinate span, the built message has no span. -/
theorem c4_aux : ∀ (n : Nat) (span_json : JsonValue) (cb : CodeBlock),
    jsize span_json ≤ n →
    (∀ e ∈ fromJsonChain span_json, direct_span e cb = none) →
    (SpannedMessage.from_json span_json cb).span = none := by
  intro n
  induction n with
  | zero =>
    intro span_json cb h _
    have := one_le_jsize span_json
    omega
  | succ n ih =>
    intro span_json cb hn h
    have hself : span_json ∈ fromJsonChain span_json := by
      rw [fromJsonChain_eq]
      exact List.mem_cons_self _ _
    have hd : direct_span span_json cb = none := h span_json hself
    rw [from_json_unfold]
    rw [hd]
    have ht : ((none : Option Span).isNone = true) := rfl
    rw [if_pos ht]
    by_cases hE : ((span_json.getKey "expansion").getKey "span").isEmptyVal = false
    · rw [if_pos hE]
      have hchain : ∀ e ∈ fromJsonChain ((span_json.getKey "expansion").getKey "span"),
          direct_span e cb = none := by
        intro e he
        apply h
        rw [fromJsonChain_eq, hE]
        exact List.mem_cons_of_mem _ (by simpa using he)
      have hlt := jsize_esj_lt hE
      have hinner := ih ((span_json.getKey "expansion").getKey "span") cb (by omega) hchain
      rw [if_neg (by simp [hinner])]
      simp [defaultMessage, hd]
    · rw [if_neg hE]
      simp [defaultMessage, hd]

/-- C4: a span record whose resolved origins are not user code at both
ends and whose expansion chain never yields a record resolving to user
code produces a spanned message with no span. -/
theorem claim_C4 (span_json : JsonValue) (cb : CodeBlock)
    (h : ∀ e ∈ fromJsonChain span_json, direct_span e cb = none) :
    (SpannedMessage.from_json span_json cb).span = none :=
  c4_aux (jsize span_json) span_json cb (le_refl _) h

/-- Witness for C4: a `lib.rs` span whose origins are generated code and
which has no expansion chain yields a span-less message. -/
theorem claim_C4_witness :
    (SpannedMessage.from_json genLocalSpanJson cbGen).span = none :=
  claim_C4 genLocalSpanJson cbGen (by decide)

/-- C5 (amended): when no direct span could be built, the expansion span is
non-empty and the inner message carries a span, the result is the inner
message with its label overwritten by the outer record's label only when
the outer record carries a label string (the inner label is kept
otherwise), and its `is_primary` flag OR-ed with the outer record's flag
(taken as false when absent). -/
theorem claim_C5 (span_json : JsonValue) (cb : CodeBlock)
    (h1 : direct_span span_json cb = none)
    (h2 : ((span_json.getKey "expansion").getKey "span").isEmptyVal = false)
    (h3 : (SpannedMessage.from_json
        ((span_json.getKey "expansion").getKey "span") cb).span.isSome = true) :
    SpannedMessage.from_json span_json cb =
      { SpannedMessage.from_json ((span_json.getKey "expansion").getKey "span") cb with
        label := match (span_json.getKey "label").asStr with
                 | some label => label
                 | none => (SpannedMessage.from_json
                     ((span_json.getKey "expansion").getKey "span") cb).label
        is_primary := (SpannedMessage.from_json
            ((span_json.getKey "expansion").getKey "span") cb).is_primary ||
          ((span_json.getKey "is_primary").asBool).getD false } := by
  rw [from_json_unfold, h1]
  have ht : ((none : Option Span).isNone = true) := rfl
  rw [if_pos ht, if_pos h2, if_pos h3]

/-- Counterexample for C5 as frozen: with an outer record carrying no
label, the propagated message keeps the inner label (`"inner"`) instead of
being overwritten by the outer record's (absent, hence empty) label. -/
theorem claim_C5_cex :
    (SpannedMessage.from_json outerNoLabel cbUser).span.isSome = true ∧
    (outerNoLabel.getKey "label").asStr = none ∧
    (SpannedMessage.from_json outerNoLabel cbUser).label = "inner" := by
  refine ⟨by decide, by decide, by decide⟩

/-- Witness for C5 (amended): with an outer label present the inner
message's label is overwritten and `is_primary` is OR-ed. -/
theorem claim_C5_witness :
    (SpannedMessage.from_json outerWithLabel cbUser).label = "outer" ∧
    (SpannedMessage.from_json outerWithLabel cbUser).is_primary = true := by
  have h := claim_C5 outerWithLabel cbUser (by decide) (by decide) (by decide)
  rw [h]
  exact ⟨by decide, by decide⟩

/-- C6: a record whose message (after envelope unwrapping and child
promotion) is one of the epilogue summaries yields no error, and the
concrete S1 record yields no error under any code block. -/
theorem claim_C6 (json : JsonValue) (cb : CodeBlock) (m : String) :
    (((finalRecord json cb).getKey "message").asStr = some m →
      isEpilogue m = true →
      CompilationError.opt_new json cb = none) ∧
    CompilationError.opt_new epilogueRecord cb = none := by
  constructor
  · intro h1 h2
    unfold CompilationError.opt_new assembleRecord
    rw [h1]
    simp only [h2, if_true]
  · rfl

/-- Witness for C6 at the S1 record. -/
theorem claim_C6_witness :
    CompilationError.opt_new epilogueRecord cbUser = none :=
  (claim_C6 epilogueRecord cbUser "aborting due to previous error").1
    (by decide) (by decide)

/-- C9: assembling never fails to produce a value — the result is `none`
exactly when the record reaching assembly has no string message or an
epilogue message, and any assembled error takes its fields from that
record, with absent fields defaulting (level to the empty string). -/
theorem claim_C9 (json : JsonValue) (cb : CodeBlock) :
    (CompilationError.opt_new json cb = none ↔
      ((finalRecord json cb).getKey "message").asStr = none ∨
      (∃ m, ((finalRecord json cb).getKey "message").asStr = some m ∧
        isEpilogue m = true)) ∧
    (∀ e, CompilationError.opt_new json cb = some e →
      e.level = (((finalRecord json cb).getKey "level").asStr).getD "" ∧
      e.message =
        sanitize_message ((((finalRecord json cb).getKey "message").asStr).getD "") ∧
      e.json = finalRecord json cb ∧
      e.code_origins = finalOrigins json cb ∧
      e.spanned_messages = build_spanned_messages (finalRecord json cb) cb) := by
  constructor
  · unfold CompilationError.opt_new assembleRecord
    cases hm : ((finalRecord json cb).getKey "message").asStr with
    | none => simp [hm]
    | some m =>
      by_cases hE : isEpilogue m = true
      · simp [hE]
      · simp [hE]
  · intro e he
    unfold CompilationError.opt_new assembleRecord at he
    split at he
    · rename_i msg hm
      split at he
      · exact absurd he (by simp)
      · injection he with he2
        subst he2
        refine ⟨rfl, ?_, rfl, rfl, rfl⟩
        rw [hm]
        rfl
    · exact absurd he (by simp)

/-- Witness for C9: a record carrying only a message assembles into an
error whose level defaults to the empty string. -/
theorem claim_C9_witness :
    (CompilationError.opt_new simpleRecord cbUser).map CompilationError.level =
      some "" := by
  cases hE : CompilationError.opt_new simpleRecord cbUser with
  | none => exact absurd hE (by decide)
  | some e =>
    have h := (claim_C9 simpleRecord cbUser).2 e hE
    simp only [Option.map_some']
    rw [h.1]
    decide

/-- Fuel irrelevance for the replacement scan. -/
theorem replaceAllAux_congr (pat rep : List Char) : ∀ (n m : Nat) (s : List Char),
    s.length ≤ n → s.length ≤ m →
    replaceAllAux pat rep n s = replaceAllAux pat rep m s := by
  intro n
  induction n with
  | zero =>
    intro m s h1 _
    have hs : s = [] := List.length_eq_zero.mp (by omega)
    subst hs
    cases m <;> rfl
  | succ n ih =>
    intro m s h1 h2
    cases s with
    | nil => cases m <;> rfl
    | cons c rest =>
      simp only [List.length_cons] at h1 h2
      obtain ⟨m', rfl⟩ : ∃ m', m = m' + 1 := ⟨m - 1, by omega⟩
      simp only [replaceAllAux]
      by_cases hc : pat ≠ [] ∧ pat.isPrefixOf (c :: rest)
      · rw [if_pos hc, if_pos hc]
        have hplen : 1 ≤ pat.length := by
          cases pat
          · exact absurd rfl hc.1
          · simp
        have hlen : ((c :: rest).drop pat.length).length ≤ n := by
          simp only [List.length_drop, List.length_cons]
          omega
        have hlen' : ((c :: rest).drop pat.length).length ≤ m' := by
          simp only [List.length_drop, List.length_cons]
          omega
        rw [ih m' _ hlen hlen']
      · rw [if_neg hc, if_neg hc]
        rw [ih m' rest (by omega) (by omega)]

/-- The replacement scan maps the empty list to itself. -/
theorem replaceAll_nil (pat rep : List Char) : replaceAll pat rep [] = [] := rfl

/-- Unfolding equation of the replacement scan on a cons cell. -/
theorem replaceAll_cons (pat rep : List Char) (c : Char) (rest : List Char) :
    replaceAll pat rep (c :: rest) =
      if pat ≠ [] ∧ pat.isPrefixOf (c :: rest) then
        rep ++ replaceAll pat rep ((c :: rest).drop pat.length)
      else c :: replaceAll pat rep rest := by
  unfold replaceAll
  simp only [List.length_cons]
  simp only [replaceAllAux]
  by_cases hc : pat ≠ [] ∧ pat.isPrefixOf (c :: rest)
  · rw [if_pos hc, if_pos hc]
    have hplen : 1 ≤ pat.length := by
      cases pat
      · exact absurd rfl hc.1
      · simp
    rw [replaceAllAux_congr pat rep rest.length ((c :: rest).drop pat.length).length _
      (by simp only [List.length_drop, List.length_cons]; omega) (le_refl _)]
  · rw [if_neg hc, if_neg hc]

/-- An infix of a cons cell is a prefix of it or an infix of the tail. -/
theorem infix_cons_elim {α : Type} {l w : List α} {a : α}
    (h : l <:+: a :: w) : l <+: a :: w ∨ l <:+: w := by
  obtain ⟨u, v, huv⟩ := h
  cases u with
  | nil =>
    left
    exact ⟨v, by simpa using huv⟩
  | cons b u' =>
    right
    have h2 : b = a ∧ u' ++ l ++ v = w := by
      simpa using huv
    exact ⟨u', v, h2.2⟩

/-- A pattern whose head avoids a block cannot start inside it: an infix
occurrence beyond an appended block lies in the remainder. -/
theorem infix_through_append {α : Type} {pat rep t : List α} {hd : α}
    (hhd : pat.head? = some hd) (hnot : hd ∉ rep)
    (h : pat <:+: rep ++ t) : pat <:+: t := by
  induction rep with
  | nil => simpa using h
  | cons r rep' ih =>
    rcases infix_cons_elim (by simpa using h) with hp | hi
    · cases pat with
      | nil => simp at hhd
      | cons p0 pt =>
        rw [List.head?_cons] at hhd
        injection hhd with hhd2
        subst hhd2
        rcases List.cons_prefix_cons.mp hp with ⟨hab, _⟩
        subst hab
        exact absurd (List.mem_cons_self _ _) hnot
    · exact ih (fun hm => hnot (List.mem_cons_of_mem _ hm)) hi

/-- A proper tail fragment of the pattern found at the front of the
sanitised text was already at the front of the raw text (the replacement's
head cannot stand in for a pattern character). -/
theorem dropFragment_back (pat rep : List Char) {rh : Char}
    (hrh : rep.head? = some rh) (hrno : rh ∉ pat) :
    ∀ (s : List Char) (k : Nat), 0 < k → k < pat.length →
    pat.drop k <+: replaceAll pat rep s → pat.drop k <+: s := by
  intro s
  induction s with
  | nil =>
    intro k _ hk2 hp
    rw [replaceAll_nil] at hp
    have := List.drop_eq_nil_iff.mp (List.prefix_nil.mp hp)
    omega
  | cons c rest ih =>
    intro k hk1 hk2 hp
    rw [replaceAll_cons] at hp
    have hne : pat.drop k ≠ [] := by
      rw [Ne, List.drop_eq_nil_iff]
      omega
    obtain ⟨a, t', hat⟩ := List.exists_cons_of_ne_nil hne
    by_cases hc : pat ≠ [] ∧ pat.isPrefixOf (c :: rest)
    · rw [if_pos hc] at hp
      cases rep with
      | nil => simp at hrh
      | cons r0 rt =>
        rw [List.head?_cons] at hrh
        injection hrh with hrh2
        subst hrh2
        rw [hat] at hp
        have hIn : a ∈ pat := by
          have h3 : a ∈ pat.drop k := by
            rw [hat]
            exact List.mem_cons_self _ _
          exact List.drop_subset _ _ h3
        rcases List.cons_prefix_cons.mp (by simpa using hp) with ⟨ha, _⟩
        subst ha
        exact absurd hIn hrno
    · rw [if_neg hc] at hp
      rw [hat] at hp
      rcases List.cons_prefix_cons.mp hp with ⟨ha, ht⟩
      have ht' : t' = pat.drop (k + 1) := by
        have h4 := List.tail_drop pat k
        rw [hat] at h4
        simpa using h4
      by_cases hk3 : k + 1 < pat.length
      · have h5 := ih (k + 1) (by omega) hk3 (by rw [← ht']; exact ht)
        rw [hat, ha]
        exact List.cons_prefix_cons.mpr ⟨rfl, by rw [ht']; exact h5⟩
      · have h6 : t' = [] := by
          rw [ht']
          exact List.drop_eq_nil_iff.mpr (by omega)
        rw [hat, ha, h6]
        exact List.cons_prefix_cons.mpr ⟨rfl, List.nil_prefix⟩

/-- The sanitised text contains no occurrence of the pattern, provided the
pattern's head is absent from the replacement and the replacement's head is
absent from the pattern. -/
theorem replaceAll_no_occurrence (pat rep : List Char) {hd rh : Char}
    (hhd : pat.head? = some hd) (hnot : hd ∉ rep)
    (hrh : rep.head? = some rh) (hrno : rh ∉ pat) :
    ∀ (n : Nat) (s : List Char), s.length ≤ n →
    ¬ pat <:+: replaceAll pat rep s := by
  intro n
  induction n with
  | zero =>
    intro s h1 hcontra
    have hs : s = [] := List.length_eq_zero.mp (by omega)
    subst hs
    rw [replaceAll_nil, List.infix_nil] at hcontra
    subst hcontra
    simp at hhd
  | succ n ih =>
    intro s h1 hcontra
    cases s with
    | nil =>
      rw [replaceAll_nil, List.infix_nil] at hcontra
      subst hcontra
      simp at hhd
    | cons c rest =>
      simp only [List.length_cons] at h1
      rw [replaceAll_cons] at hcontra
      by_cases hc : pat ≠ [] ∧ pat.isPrefixOf (c :: rest)
      · rw [if_pos hc] at hcontra
        have h2 := infix_through_append hhd hnot hcontra
        have hplen : 1 ≤ pat.length := by
          cases pat
          · exact absurd rfl hc.1
          · simp
        exact ih _ (by simp only [List.length_drop, List.length_cons]; omega) h2
      · rw [if_neg hc] at hcontra
        rcases infix_cons_elim hcontra with hp | hi
        · cases pat with
          | nil => simp at hhd
          | cons p0 pt =>
            rcases List.cons_prefix_cons.mp hp with ⟨hpc, hpt⟩
            cases pt with
            | nil =>
              apply hc
              refine ⟨by simp, ?_⟩
              exact List.isPrefixOf_iff_prefix.mpr
                (List.cons_prefix_cons.mpr ⟨hpc, List.nil_prefix⟩)
            | cons q0 qt =>
              have hlt : 1 < (p0 :: q0 :: qt).length := by simp
              have h7 := dropFragment_back (p0 :: q0 :: qt) rep hrh hrno rest 1
                (by omega) hlt hpt
              apply hc
              refine ⟨by simp, ?_⟩
              exact List.isPrefixOf_iff_prefix.mpr
                (List.cons_prefix_cons.mpr ⟨hpc, h7⟩)
        · exact ih rest (by omega) hi

/-- Texts without an occurrence of the pattern are left unchanged. -/
theorem replaceAll_of_not_infix (pat rep : List Char) :
    ∀ (s : List Char), ¬ pat <:+: s → replaceAll pat rep s = s := by
  intro s
  induction s with
  | nil => intro _; rfl
  | cons c rest ih =>
    intro h
    rw [replaceAll_cons]
    have hc : ¬(pat ≠ [] ∧ pat.isPrefixOf (c :: rest)) := by
      rintro ⟨_, h2⟩
      obtain ⟨t, ht⟩ := List.isPrefixOf_iff_prefix.mp h2
      exact h ⟨[], t, by simpa using ht⟩
    rw [if_neg hc]
    have hrest : ¬ pat <:+: rest := by
      intro hi
      obtain ⟨u, v, huv⟩ := hi
      exact h ⟨c :: u, v, by rw [List.cons_append, List.cons_append, huv]⟩
    rw [ih hrest]

/-- C7 (amended): sanitisation removes every occurrence of the
backtick-quoted sentinel `` `evcxr_variable_store` `` — it never survives
in the output — while messages without the quoted sentinel are preserved
exactly; the S2 message maps to the expected text, and the S2 record
assembles, under every code block, to an error whose message equals that
sanitised text.  (The bare sentinel identifier without backticks is not
replaced; see the counterexample.) -/
theorem claim_C7 :
    (∀ message : String, ¬ sentinelChars <:+: (sanitize_message message).data) ∧
    (∀ message : String, ¬ sentinelChars <:+: message.data →
      sanitize_message message = message) ∧
    sanitize_message "expected `;`, found `evcxr_variable_store`" =
      "expected `;`, found <end of input>" ∧
    (∀ cb : CodeBlock,
      (CompilationError.opt_new sentinelRecord cb).map CompilationError.message =
        some "expected `;`, found <end of input>") := by
  refine ⟨?_, ?_, by decide, fun cb => rfl⟩
  · intro message
    have h1 : sentinelChars.head? = some backtickChar := by decide
    have h2 : backtickChar ∉ replacementChars := by decide
    have h3 : replacementChars.head? = some '<' := by decide
    have h4 : ('<' : Char) ∉ sentinelChars := by decide
    have h5 : (sanitize_message message).data =
        replaceAll sentinelChars replacementChars message.data := rfl
    rw [h5]
    exact replaceAll_no_occurrence sentinelChars replacementChars h1 h2 h3 h4
      message.data.length message.data (le_refl _)
  · intro message h
    have h5 : sanitize_message message =
        ⟨replaceAll sentinelChars replacementChars message.data⟩ := rfl
    rw [h5, replaceAll_of_not_infix sentinelChars replacementChars message.data h]

/-- Counterexample for C7 as frozen: the bare sentinel identifier, without
backticks, survives sanitisation, so the sanitised message can still
contain an occurrence of `evcxr_variable_store`. -/
theorem claim_C7_cex :
    sanitize_message "x evcxr_variable_store y" = "x evcxr_variable_store y" ∧
    bareSentinelChars <:+: (sanitize_message "x evcxr_variable_store y").data := by
  exact ⟨by decide, by decide⟩

/-- Witness for C7 (amended): a sentinel-free message is preserved, the S2
output carries no quoted sentinel, and the S2 record assembles under a
concrete code block to an error with the sanitised message. -/
theorem claim_C7_witness :
    sanitize_message "hello" = "hello" ∧
    ¬ sentinelChars <:+:
      (sanitize_message "expected `;`, found `evcxr_variable_store`").data ∧
    (CompilationError.opt_new sentinelRecord cbUser).map CompilationError.message =
      some "expected `;`, found <end of input>" := by
  exact ⟨claim_C7.2.1 "hello" (by decide), claim_C7.1 _, claim_C7.2.2.2 cbUser⟩

/-- When no child message captures under the first pattern, the children
loop yields nothing. -/
theorem childMsgsP1_none : ∀ (children : List JsonValue),
    (∀ c ∈ children,
      ((c.getKey "message").asStr.bind fun m => p1Capture m.data) = none) →
    childMsgsP1 children = none := by
  intro children
  induction children with
  | nil => intro _; rfl
  | cons child rest ih =>
    intro h
    have hhead := h child (List.mem_cons_self _ _)
    have htail : ∀ c ∈ rest,
        ((c.getKey "message").asStr.bind fun m => p1Capture m.data) = none :=
      fun c hc => h c (List.mem_cons_of_mem _ hc)
    cases hm : (child.getKey "message").asStr with
    | none =>
      simp only [childMsgsP1, hm]
      exact ih htail
    | some m =>
      rw [hm] at hhead
      simp only [Option.some_bind] at hhead
      simp only [childMsgsP1, hm, hhead]
      exact ih htail

/-- When no span label captures under either pattern, the spans loop
yields nothing. -/
theorem spanLabels_none : ∀ (spans : List JsonValue),
    (∀ sp ∈ spans,
      ((sp.getKey "label").asStr.bind fun l => p1Capture l.data) = none ∧
      ((sp.getKey "label").asStr.bind fun l => p2Capture l.data) = none) →
    spanLabels spans = none := by
  intro spans
  induction spans with
  | nil => intro _; rfl
  | cons sp rest ih =>
    intro h
    have hhead := h sp (List.mem_cons_self _ _)
    have htail : ∀ x ∈ rest,
        ((x.getKey "label").asStr.bind fun l => p1Capture l.data) = none ∧
        ((x.getKey "label").asStr.bind fun l => p2Capture l.data) = none :=
      fun x hx => h x (List.mem_cons_of_mem _ hx)
    cases hm : (sp.getKey "label").asStr with
    | none =>
      simp only [spanLabels, hm]
      exact ih htail
    | some l =>
      obtain ⟨h1, h2⟩ := hhead
      rw [hm] at h1 h2
      simp only [Option.some_bind] at h1 h2
      simp only [spanLabels, hm, h1, h2]
      exact ih htail

/-- C8: the type extractor returns the backtick-quoted type after the last
`found` for the S4 child message, the unquoted `integer` fallback for the
S5 span label, and nothing when neither pattern matches any child message
or span label. -/
theorem claim_C8 :
    CompilationError.get_actual_type s4Error = some "Option<String>" ∧
    CompilationError.get_actual_type s5Error = some "integer" ∧
    (∀ json : JsonValue,
      (∀ c ∈ childList json,
        ((c.getKey "message").asStr.bind fun m => p1Capture m.data) = none) →
      (∀ sp ∈ spanList json,
        ((sp.getKey "label").asStr.bind fun l => p1Capture l.data) = none ∧
        ((sp.getKey "label").asStr.bind fun l => p2Capture l.data) = none) →
      getActualType json = none) := by
  refine ⟨by decide, by decide, ?_⟩
  intro json h1 h2
  unfold getActualType
  rw [childMsgsP1_none _ h1, spanLabels_none _ h2]
  rfl

/-- Witness for C8 at a record with a non-matching child message and a
non-matching span label. -/
theorem claim_C8_witness : getActualType noTypeRecord = none :=
  claim_C8.2.2 noTypeRecord (by decide) (by decide)

/-- C10: for a user-code segment, `Span::from_segment` fills `byte_start`
and `byte_end` with the computed start and end columns (not byte offsets)
and fixes `code_block_id` to zero; for any other segment kind it returns
none. -/
theorem claim_C10 (count_columns : List Char → Nat) (segment : Segment)
    (range : TextRange) :
    (∀ meta, segment.kind = CodeKind.originalUserCode meta →
      Span.from_segment count_columns segment range = some
        { start_line := (line_and_column count_columns segment.code range.start
            meta.column_offset meta.start_line).1
          start_column := (line_and_column count_columns segment.code range.start
            meta.column_offset meta.start_line).2
          end_line := (line_and_column count_columns segment.code range.stop
            meta.column_offset meta.start_line).1
          end_column := (line_and_column count_columns segment.code range.stop
            meta.column_offset meta.start_line).2
          byte_start := (line_and_column count_columns segment.code range.start
            meta.column_offset meta.start_line).2
          byte_end := (line_and_column count_columns segment.code range.stop
            meta.column_offset meta.start_line).2
          code_block_id := 0 }) ∧
    (segment.kind = CodeKind.otherGeneratedCode →
      Span.from_segment count_columns segment range = none) := by
  constructor
  · intro meta hmeta
    unfold Span.from_segment
    rw [hmeta]
  · intro hgen
    unfold Span.from_segment
    rw [hgen]

/-- Witness for C10 at a concrete user segment and range (and a generated
segment). -/
theorem claim_C10_witness :
    Span.from_segment List.length userSegment ⟨0, 3⟩ = some
      { start_line := 0, start_column := 1, end_line := 1, end_column := 3
        byte_start := 1, byte_end := 3, code_block_id := 0 } ∧
    Span.from_segment List.length genSegment ⟨0, 3⟩ = none := by
  constructor
  · have h := (claim_C10 List.length userSegment ⟨0, 3⟩).1 ⟨1, 0, 0⟩ (by decide)
    rw [h]
    decide
  · exact (claim_C10 List.length genSegment ⟨0, 3⟩).2 (by decide)

end Evcxr
